import Mathlib

/-!
# Verification of `dupes` (duplicate-file finder)

Shallow embedding of the Go program `dupes.go` (plus `utils.go`) and proofs
about its duplicate-detection pipeline.

Modelling conventions:
* File contents are `List Nat` (byte values).  The filesystem is a function
  `FS : String → Option FData`; `none` means `os.Open` fails for that path,
  and `FData.readError = true` means that after the listed bytes have been
  delivered, the next `Read` reports an I/O error instead of `io.EOF`
  (mirroring a mid-stream read failure).
* The SHA-256 digest is abstracted as a parameter `H : List Nat → String`
  (`fmt.Sprintf("%x", hasher.Sum(nil))` of the bytes streamed so far); the
  program treats the digest as an opaque string key, so every theorem is
  stated for an arbitrary `H`, with collision-freeness an explicit
  hypothesis where the source relies on it.
* Go's `uint64` counters (`files`, `dupes`, `wasted`) wrap modulo `2 ^ 64`;
  increments are taken `% M64`.
* `filepath.Walk` semantics (per its documentation): when the walk callback
  returns a non-nil error for an entry, the walk of that root stops
  entirely; `main` ignores the returned error and proceeds to the next root.
* The byte-comparison loop of `fileContentsHelper` is written with an
  explicit fuel argument (structural recursion); the wrapper passes fuel
  strictly larger than the total number of bytes, which is enough for any
  positive buffer size, so the fuel-exhaustion branch is unreachable there.
* `sort.Strings` is modelled by insertion sort over the lexicographic order
  on `String`; only the sorted result is observable.
-/

namespace Dupes

/-- Byte values (the program never inspects them beyond equality). -/
abbrev Byte := Nat

/-- Modulus of Go's `uint64` counters. -/
def M64 : Nat := 2 ^ 64

/-- Contents of one openable file: the bytes that can be read, and whether a
read error occurs after them (instead of a clean `io.EOF`). -/
structure FData where
  bytes : List Byte
  readError : Bool
  deriving Repr, DecidableEq

/-- The filesystem: `none` means the file cannot be opened. -/
abbrev FS := String → Option FData

/-- The I/O errors the program can see. -/
inductive IOE where
  | openE  -- `os.Open` failure
  | readE  -- a `Read` failure mid-stream
  | eofE   -- `io.EOF` (a sentinel error value in Go)
  deriving Repr, DecidableEq

/-- `checksum` from `dupes.go`: opens the file and streams it through the
hasher via `io.Copy`.  The source discards `io.Copy`'s error result, so a
mid-stream read failure still yields the digest of the bytes read so far,
with a nil error; only an `os.Open` failure is reported. -/
def checksum (H : List Byte → String) (fs : FS) (path : String) : Except IOE String :=
  match fs path with
  | none => .error .openE
  | some f => .ok (H f.bytes)

/-- One `Read` call on an open file with a buffer of size `bs`: if bytes
remain, up to `bs` of them are delivered with a nil error; at end of data
the call returns zero bytes and either `io.EOF` or a read error. -/
def readStep (bs : Nat) (f : FData) : List Byte × Option IOE × FData :=
  match f.bytes with
  | [] => ([], some (if f.readError then IOE.readE else IOE.eofE), f)
  | _ => (f.bytes.take bs, none, ⟨f.bytes.drop bs, f.readError⟩)

/-- Writing a chunk into the front of a fixed-size buffer; bytes of the
buffer beyond the chunk keep their previous values (exactly what `Read`
does to the Go slice). -/
def overwrite (chunk buf : List Byte) : List Byte :=
  chunk ++ buf.drop chunk.length

/-- The comparison loop of `fileContentsHelper`: lock-step reads into the
two buffers, full-buffer `bytes.Equal` whenever either read returned data,
then the `switch` on the two errors.  `fuel` makes the recursion
structural; the wrapper supplies more fuel than bytes, so the `0` branch is
unreachable for positive buffer sizes. -/
def fchLoop (bs : Nat) : Nat → FData → FData → List Byte → List Byte → Except IOE Bool
  | 0, _, _, _, _ => .error .readE
  | fuel + 1, a, b, ba, bb =>
    let ra := readStep bs a
    let rb := readStep bs b
    let ba' := overwrite ra.1 ba
    let bb' := overwrite rb.1 bb
    if (0 < ra.1.length ∨ 0 < rb.1.length) ∧ ba' ≠ bb' then .ok false
    else
      match ra.2.1, rb.2.1 with
      | some .eofE, some .eofE => .ok true
      | some e, _ => .error e
      | none, some e => .error e
      | none, none => fchLoop bs fuel ra.2.2 rb.2.2 ba' bb'

/-- `fileContentsHelper` from `dupes.go`: both buffers start zeroed
(`make([]byte, bufferSize)`), `bs` is `os.Getpagesize()`. -/
def fileContentsHelper (bs : Nat) (a b : FData) : Except IOE Bool :=
  fchLoop bs (a.bytes.length + b.bytes.length + 1) a b
    (List.replicate bs 0) (List.replicate bs 0)

/-- `fileContentsMatch` from `dupes.go`: open both files, then run the
helper. -/
def fileContentsMatch (bs : Nat) (fs : FS) (pa pb : String) : Except IOE Bool :=
  match fs pa with
  | none => .error .openE
  | some a =>
    match fs pb with
    | none => .error .openE
    | some b => fileContentsHelper bs a b

/-- One entry handed to the walk callback: `path`, `info.Name()`,
`info.Size()` and `info.Mode().IsRegular()`. -/
structure Obs where
  path : String
  name : String
  size : Nat
  regular : Bool
  deriving Repr, DecidableEq

/-- The program's mutable state: the three maps and the three `uint64`
counters. -/
structure St where
  sizes : List (Nat × String)
  hashes : List (String × String)
  final : List (String × List String)
  files : Nat
  dupes : Nat
  wasted : Nat
  deriving Repr, DecidableEq

/-- The state at program start. -/
def emptySt : St := ⟨[], [], [], 0, 0, 0⟩

/-- Go map lookup on an association list. -/
def lookupA {K V : Type} [DecidableEq K] (k : K) : List (K × V) → Option V
  | [] => none
  | (k', v) :: rest => if k = k' then some v else lookupA k rest

/-- Go map insert (overwrites the value if the key is present). -/
def insertA {K V : Type} [DecidableEq K] (k : K) (v : V) : List (K × V) → List (K × V)
  | [] => [(k, v)]
  | (k', v') :: rest => if k = k' then (k, v) :: rest else (k', v') :: insertA k v rest

/-- `final[k] = append(final[k], x)`. -/
def appendA (k : String) (x : String) (m : List (String × List String)) :
    List (String × List String) :=
  insertA k ((lookupA k m).getD [] ++ [x]) m

/-- Run configuration: the flags, plus the ambient filesystem, digest
function and comparison buffer size.  The glob pattern is pre-validated by
`main`, so its per-file application is modelled as a total predicate on
`info.Name()`. -/
structure Cfg where
  paranoid : Bool
  minimumSize : Nat
  globIsDefault : Bool
  globMatch : String → Bool
  bufSize : Nat
  H : List Byte → String
  fs : FS

/-- Instrumentation: the digest / comparison actions `check` performs,
recorded so that theorems can speak about which files were ever hashed or
compared. -/
inductive Ev where
  | backpatch (dupe : String)              -- `checksum(dupe)` invoked on the size partner
  | digest (path dupe : String)            -- `checksum(path)` invoked; `dupe` is the size partner
  | digestMatch (path q : String)          -- `hashes[sum]` lookup found `q` for `path`
  | byteCompare (pa pb : String)           -- `fileContentsMatch(pa, pb)` invoked
  | collision (path q : String)            -- collision warning printed
  deriving Repr, DecidableEq

/-- The walk callback `check` from `dupes.go`, on one observation: returns
the error result (`nil` modelled as `.ok ()`), the new state, and the log
of digest/comparison events of this step. -/
def check (cfg : Cfg) (st : St) (o : Obs) : Except IOE Unit × St × List Ev :=
  if o.regular = false ∨ o.size < cfg.minimumSize then (.ok (), st, [])
  else if cfg.globIsDefault = false ∧ cfg.globMatch o.name = false then (.ok (), st, [])
  else
    let st := { st with files := (st.files + 1) % M64 }
    match lookupA o.size st.sizes with
    | none => (.ok (), { st with sizes := insertA o.size o.path st.sizes }, [])
    | some dupe =>
      match checksum cfg.H cfg.fs dupe with
      | .error e => (.error e, st, [.backpatch dupe])
      | .ok sum =>
        let st := { st with hashes := insertA sum dupe st.hashes }
        match checksum cfg.H cfg.fs o.path with
        | .error e => (.error e, st, [.backpatch dupe, .digest o.path dupe])
        | .ok sum2 =>
          match lookupA sum2 st.hashes with
          | none =>
            (.ok (), { st with hashes := insertA sum2 o.path st.hashes },
              [.backpatch dupe, .digest o.path dupe])
          | some q =>
            if cfg.paranoid = true then
              match fileContentsMatch cfg.bufSize cfg.fs o.path q with
              | .error e =>
                (.error e, st,
                  [.backpatch dupe, .digest o.path dupe, .digestMatch o.path q,
                    .byteCompare o.path q])
              | .ok false =>
                (.ok (), st,
                  [.backpatch dupe, .digest o.path dupe, .digestMatch o.path q,
                    .byteCompare o.path q, .collision o.path q])
              | .ok true =>
                (.ok (),
                  { st with dupes := (st.dupes + 1) % M64,
                            wasted := (st.wasted + o.size) % M64,
                            final := appendA q o.path st.final },
                  [.backpatch dupe, .digest o.path dupe, .digestMatch o.path q,
                    .byteCompare o.path q])
            else
              (.ok (),
                { st with dupes := (st.dupes + 1) % M64,
                          wasted := (st.wasted + o.size) % M64,
                          final := appendA q o.path st.final },
                [.backpatch dupe, .digest o.path dupe, .digestMatch o.path q])

/-- `filepath.Walk root check`: entries of one root in walk order; when the
callback returns a non-nil error the walk of this root stops entirely
(remaining entries are never visited). -/
def runRoot (cfg : Cfg) (st : St) : List Obs → St × List Ev
  | [] => (st, [])
  | o :: os =>
    match check cfg st o with
    | (.error _, st', evs) => (st', evs)
    | (.ok _, st', evs) =>
      let r := runRoot cfg st' os
      (r.1, evs ++ r.2)

/-- The root loop of `main`: `filepath.Walk`'s returned error is ignored,
so later roots are still walked. -/
def runAll (cfg : Cfg) (st : St) : List (List Obs) → St × List Ev
  | [] => (st, [])
  | r :: rs =>
    let a := runRoot cfg st r
    let b := runAll cfg a.1 rs
    (b.1, a.2 ++ b.2)

/-- `sortedDupes` from `dupes.go`: the keys of `final`, sorted with
`sort.Strings` (lexicographic ascending). -/
def sortedDupes (st : St) : List String :=
  List.insertionSort (fun a b => a ≤ b) (st.final.map Prod.fst)

/-- The cluster report printed by `main`: for each sorted original, the
original and its duplicates in stored (discovery) order. -/
def clusterOutput (st : St) : List (String × List String) :=
  (sortedDupes st).map (fun k => (k, (lookupA k st.final).getD []))

/-- Observable outcome of one invocation of `main` (glob pattern assumed
valid, as `main` checks it up front). -/
structure MainOut where
  usagePrinted : Bool
  exitStatus : Nat
  finalSt : St
  summaryPrinted : Bool
  deriving Repr, DecidableEq

/-- `main` from `dupes.go`: with zero positional arguments it calls
`flag.Usage()` (which only prints) and then falls through: the root loop
runs over no roots, the cluster report is empty, the summary is printed
only if a bucket is nonempty, and the process exits normally (status 0). -/
def mainRun (cfg : Cfg) (roots : List (List Obs)) : MainOut :=
  let usage := decide (roots.length < 1)
  let st := (runAll cfg emptySt roots).1
  { usagePrinted := usage
    exitStatus := 0
    finalSt := st
    summaryPrinted := decide (0 < st.sizes.length ∨ 0 < st.hashes.length) }

end Dupes

namespace Dupes

/-! ## Helper lemmas about the comparison loop -/

/-- One successful lock-step iteration in which the two (full) buffers end
up equal: the loop continues on the remaining bytes. -/
theorem fchLoop_step (bs fuel : Nat) (a b : FData) (ba bb : List Byte)
    (ha : a.bytes ≠ []) (hb : b.bytes ≠ [])
    (heq : overwrite (a.bytes.take bs) ba = overwrite (b.bytes.take bs) bb) :
    fchLoop bs (fuel + 1) a b ba bb =
      fchLoop bs fuel ⟨a.bytes.drop bs, a.readError⟩ ⟨b.bytes.drop bs, b.readError⟩
        (overwrite (a.bytes.take bs) ba) (overwrite (b.bytes.take bs) bb) := by
  obtain ⟨abytes, are⟩ := a
  obtain ⟨bbytes, bre⟩ := b
  match habytes : abytes, hbbytes : bbytes with
  | [], _ => exact absurd rfl ha
  | _ :: _, [] => exact absurd rfl hb
  | x :: xs, y :: ys =>
    simp only [fchLoop, readStep] at heq ⊢
    rw [if_neg (by simp [heq])]

/-- When both streams are exhausted with no pending read error, the loop
reports the files identical. -/
theorem fchLoop_done (bs fuel : Nat) (ba bb : List Byte) :
    fchLoop bs (fuel + 1) ⟨[], false⟩ ⟨[], false⟩ ba bb = .ok true := by
  simp [fchLoop, readStep]

/-! ## C9: reflexivity of the byte comparator -/

theorem fchLoop_self (bs : Nat) (hbs : 0 < bs) :
    ∀ (fuel : Nat) (bytes buf : List Byte), bytes.length < fuel →
      fchLoop bs fuel ⟨bytes, false⟩ ⟨bytes, false⟩ buf buf = .ok true := by
  intro fuel
  induction fuel with
  | zero => intro bytes buf h; omega
  | succ n ih =>
    intro bytes buf h
    match bytes with
    | [] => exact fchLoop_done bs n buf buf
    | x :: xs =>
      rw [fchLoop_step bs n ⟨x :: xs, false⟩ ⟨x :: xs, false⟩ buf buf (by simp) (by simp) rfl]
      have h' : xs.length + 1 < n + 1 := by simpa using h
      exact ih _ _ (by simp only [List.length_drop, List.length_cons]; omega)

/-- C9: the Byte Comparator is reflexive: for every readable file `P`
(openable, no mid-stream read error) and positive buffer size,
`identical(P, P)` returns true. -/
theorem byteComparatorReflexive (bs : Nat) (fs : FS) (p : String) (f : FData)
    (hopen : fs p = some f) (hre : f.readError = false) (hbs : 0 < bs) :
    fileContentsMatch bs fs p p = .ok true := by
  obtain ⟨bytes, re⟩ := f
  subst hre
  simp only [fileContentsMatch, hopen, fileContentsHelper]
  exact fchLoop_self bs hbs _ bytes _ (by omega)

def fsC9 : FS := fun p => if p = "p" then some ⟨[1, 2, 3, 4, 5], false⟩ else none

theorem byteComparatorReflexive_witness :
    fsC9 "p" = some ⟨[1, 2, 3, 4, 5], false⟩ ∧
      (⟨[1, 2, 3, 4, 5], false⟩ : FData).readError = false ∧ 0 < 4 ∧
      fileContentsMatch 4 fsC9 "p" "p" = .ok true :=
  ⟨rfl, rfl, by decide,
    byteComparatorReflexive 4 fsC9 "p" ⟨[1, 2, 3, 4, 5], false⟩ rfl rfl (by decide)⟩

/-! ## C2: mid-stream read failures during digesting -/

def HtsC2 : List Byte → String := fun l => toString l

def fsC2 : FS := fun p => if p = "f" then some ⟨[104, 105], true⟩ else none

/-- C2: the claim says `digest(path)` fails with an `IOError` when a read
fails mid-stream and never returns a digest of only the bytes read before
the failure.  The source discards `io.Copy`'s error, so on the file `"f"`
(which delivers bytes `[104, 105]` and then fails to read) `checksum`
nevertheless succeeds with the digest of exactly those bytes. -/
theorem checksumIgnoresMidStreamReadError :
    fsC2 "f" = some ⟨[104, 105], true⟩ ∧
      checksum HtsC2 fsC2 "f" = .ok (HtsC2 [104, 105]) :=
  ⟨rfl, rfl⟩

/-! ## C5: zero root paths -/

def cfgC5 : Cfg := ⟨false, 1, true, fun _ => true, 4, fun l => toString l, fun _ => none⟩

/-- C5: the claim says that with zero root paths the program prints the
usage text and exits with a non-zero status.  In the source `flag.Usage()`
only prints; `main` then falls through, walks no roots, prints no summary,
and returns normally — exit status 0, contradicting the claim. -/
theorem zeroRootsUsageButExitZero :
    mainRun cfgC5 [] =
      { usagePrinted := true, exitStatus := 0, finalSt := emptySt, summaryPrinted := false } :=
  rfl

/-! ## C4: files of different lengths in the byte comparator -/

def fsC4 : FS := fun p =>
  if p = "x" then some ⟨[97, 0], false⟩ else if p = "y" then some ⟨[97], false⟩ else none

/-- C4: the claim says a pair of files whose contents agree up to the
shorter length but whose lengths differ is always reported not-identical.
For the 2-byte file `"x"` (bytes `[97, 0]`) and the 1-byte file `"y"`
(byte `[97]`), with any buffer size of at least 2 (every real page size),
the zero-initialized tail of the buffer makes the full-buffer comparison
succeed and both streams then hit EOF together, so the comparator reports
the two files of different lengths as identical. -/
theorem byteComparatorEquatesDifferentLengths (bs : Nat) (h : 2 ≤ bs) :
    fileContentsMatch bs fsC4 "x" "y" = .ok true := by
  obtain ⟨k, rfl⟩ : ∃ k, bs = k + 2 := ⟨bs - 2, by omega⟩
  have hx : fsC4 "x" = some ⟨[97, 0], false⟩ := rfl
  have hy : fsC4 "y" = some ⟨[97], false⟩ := rfl
  simp only [fileContentsMatch, hx, hy, fileContentsHelper]
  have heq : overwrite (List.take (k + 2) [97, 0]) (List.replicate (k + 2) 0) =
      overwrite (List.take (k + 2) [97]) (List.replicate (k + 2) 0) := by
    rw [List.take_of_length_le (by simp), List.take_of_length_le (by simp)]
    simp [overwrite, List.drop_replicate, List.replicate_succ]
  have e1 := fchLoop_step (k + 2) (List.length [97, 0] + List.length [(97 : Byte)] + 1 - 1)
      ⟨[97, 0], false⟩ ⟨[97], false⟩ (List.replicate (k + 2) 0) (List.replicate (k + 2) 0)
      (by simp) (by simp) heq
  simp only [List.length_cons, List.length_nil] at e1 ⊢
  rw [e1]
  rw [List.drop_eq_nil_of_le (by simp), List.drop_eq_nil_of_le (by simp)]
  exact fchLoop_done _ _ _ _

theorem byteComparatorEquatesDifferentLengths_witness :
    2 ≤ 4096 ∧ fileContentsMatch 4096 fsC4 "x" "y" = .ok true :=
  ⟨by decide, byteComparatorEquatesDifferentLengths 4096 (by decide)⟩

end Dupes

namespace Dupes

/-! ## C10: observing the same path twice -/

/-- C10: if the same path with the same size is observed twice in one run
(reachable through the public interface by passing the same root twice),
the second observation classifies the file as a duplicate of itself: the
run ends with a cluster keyed by that path containing that same path as a
duplicate, and `dupes` and `wasted` have been incremented although no
distinct duplicate file exists.  Stated for default flags (`-p` off,
minimum size 1, default glob). -/
theorem samePathTwiceSelfDuplicate (glob : String → Bool) (bs : Nat)
    (H : List Byte → String) (fs : FS) (p nm : String) (s : Nat) (f : FData)
    (hopen : fs p = some f) (hs : 1 ≤ s) (hsM : s < M64) :
    runAll ⟨false, 1, true, glob, bs, H, fs⟩ emptySt
        [[⟨p, nm, s, true⟩], [⟨p, nm, s, true⟩]] =
      (⟨[(s, p)], [(H f.bytes, p)], [(p, [p])], 2, 1, s⟩,
        [.backpatch p, .digest p p, .digestMatch p p]) := by
  have hns : ¬ s < 1 := by omega
  have h1 : (0 + 1) % M64 = 1 := by norm_num [M64]
  have h2 : (1 + 1) % M64 = 2 := by norm_num [M64]
  have hw : s % M64 = s := Nat.mod_eq_of_lt hsM
  simp [runAll, runRoot, check, checksum, hopen, lookupA, insertA, appendA, emptySt,
    hns, h1, h2, hw]

def fsC10 : FS := fun p => if p = "q" then some ⟨[9, 9], false⟩ else none

theorem samePathTwiceSelfDuplicate_witness :
    fsC10 "q" = some ⟨[9, 9], false⟩ ∧ 1 ≤ 2 ∧ 2 < M64 ∧
      runAll ⟨false, 1, true, fun _ => true, 4, fun l => toString l, fsC10⟩ emptySt
          [[⟨"q", "q", 2, true⟩], [⟨"q", "q", 2, true⟩]] =
        (⟨[(2, "q")], [(toString [(9 : Byte), 9], "q")], [("q", ["q"])], 2, 1, 2⟩,
          [.backpatch "q", .digest "q" "q", .digestMatch "q" "q"]) :=
  ⟨rfl, by omega, by norm_num [M64],
    samePathTwiceSelfDuplicate (fun _ => true) 4 (fun l => toString l) fsC10 "q" "q" 2
      ⟨[9, 9], false⟩ rfl (by omega) (by norm_num [M64])⟩

end Dupes

namespace Dupes

/-! ## C1: what an IOError during digesting does to the run -/

def fsC1 : FS := fun p =>
  if p = "a" then some ⟨[7], false⟩ else if p = "c" then some ⟨[7], false⟩ else none

def cfgC1 : Cfg := ⟨false, 1, true, fun _ => true, 4, fun l => toString l, fsC1⟩

def oaC1 : Obs := ⟨"a", "a", 1, true⟩

def obC1 : Obs := ⟨"b", "b", 1, true⟩

def ocC1 : Obs := ⟨"c", "c", 1, true⟩

/-- C1 counterexample: in the root `[a, b, c]`, file `b` cannot be opened,
so digesting it fails.  The claim says traversal continues with the
remaining sibling entries; in fact `check`'s error propagates to
`filepath.Walk`, which stops the walk of the root: `c` is never examined
(`files` stays 2 and no cluster is formed), whereas the same root without
`b` examines `c` and records it as a duplicate of `a`. -/
theorem ioErrorSkipsRemainingSiblings_cex :
    runAll cfgC1 emptySt [[oaC1, obC1, ocC1]] =
      (⟨[(1, "a")], [(toString [(7 : Byte)], "a")], [], 2, 0, 0⟩,
        [.backpatch "a", .digest "b" "a"]) ∧
    runAll cfgC1 emptySt [[oaC1, ocC1]] =
      (⟨[(1, "a")], [(toString [(7 : Byte)], "a")], [("a", ["c"])], 2, 1, 1⟩,
        [.backpatch "a", .digest "c" "a", .digestMatch "c" "a"]) :=
  ⟨rfl, rfl⟩

/-- When `check` returns an error, the failing observation changed no
committed state except the `files` counter and possibly the backpatched
digest entry of the stored size partner. -/
theorem check_error_state (cfg : Cfg) (st : St) (o : Obs) (e : IOE) (st' : St)
    (evs : List Ev) (h : check cfg st o = (.error e, st', evs)) :
    st'.sizes = st.sizes ∧ st'.final = st.final ∧ st'.dupes = st.dupes ∧
      st'.wasted = st.wasted ∧
      (st'.hashes = st.hashes ∨ ∃ d sum, lookupA o.size st.sizes = some d ∧
        checksum cfg.H cfg.fs d = .ok sum ∧ st'.hashes = insertA sum d st.hashes) := by
  simp only [check] at h
  split at h
  · simp at h
  split at h
  · simp at h
  split at h
  · simp at h
  next dupe hdupe =>
    split at h
    next herr =>
      simp only [Prod.mk.injEq] at h
      obtain ⟨he, hst, hevs⟩ := h
      subst hst
      exact ⟨rfl, rfl, rfl, rfl, Or.inl rfl⟩
    next sum hsum =>
      split at h
      next herr2 =>
        simp only [Prod.mk.injEq] at h
        obtain ⟨he, hst, hevs⟩ := h
        subst hst
        exact ⟨rfl, rfl, rfl, rfl, Or.inr ⟨dupe, sum, hdupe, hsum, rfl⟩⟩
      next sum2 hsum2 =>
        split at h
        · simp at h
        next q hq =>
          split at h
          · split at h
            next e3 hcmp =>
              simp only [Prod.mk.injEq] at h
              obtain ⟨he, hst, hevs⟩ := h
              subst hst
              exact ⟨rfl, rfl, rfl, rfl, Or.inr ⟨dupe, sum, hdupe, hsum, rfl⟩⟩
            · simp at h
            · simp at h
          · simp at h

/-- C1 amended: an `IOError` raised while digesting or byte-comparing
during the processing of one observation leaves SizeBucket, the clusters,
`dupes` and `wasted` unchanged and does not insert the failing file;
DigestBucket at most gains the backpatched entry of the stored size
partner.  However, the error propagates to `filepath.Walk`, which aborts
the walk of the current root — the remaining sibling entries are skipped —
while `main` ignores the error and continues with the remaining roots. -/
theorem ioErrorLocalFrameButRootWalkAborts (cfg : Cfg) (st : St) (o : Obs)
    (e : IOE) (st' : St) (evs : List Ev)
    (h : check cfg st o = (.error e, st', evs)) :
    st'.sizes = st.sizes ∧ st'.final = st.final ∧ st'.dupes = st.dupes ∧
      st'.wasted = st.wasted ∧
      (st'.hashes = st.hashes ∨ ∃ d sum, lookupA o.size st.sizes = some d ∧
        checksum cfg.H cfg.fs d = .ok sum ∧ st'.hashes = insertA sum d st.hashes) ∧
      (∀ os, runRoot cfg st (o :: os) = (st', evs)) ∧
      (∀ os rs, runAll cfg st ((o :: os) :: rs) =
        ((runAll cfg st' rs).1, evs ++ (runAll cfg st' rs).2)) := by
  have hframe := check_error_state cfg st o e st' evs h
  have habort : ∀ os, runRoot cfg st (o :: os) = (st', evs) := by
    intro os; simp [runRoot, h]
  refine ⟨hframe.1, hframe.2.1, hframe.2.2.1, hframe.2.2.2.1, hframe.2.2.2.2, habort, ?_⟩
  intro os rs
  simp [runAll, habort os]

def stC1 : St := ⟨[(1, "a")], [], [], 1, 0, 0⟩

def stC1' : St := ⟨[(1, "a")], [(toString [(7 : Byte)], "a")], [], 2, 0, 0⟩

def evsC1 : List Ev := [.backpatch "a", .digest "b" "a"]

theorem ioErrorLocalFrameButRootWalkAborts_witness :
    check cfgC1 stC1 obC1 = (.error .openE, stC1', evsC1) ∧
      stC1'.sizes = stC1.sizes ∧
      runRoot cfgC1 stC1 [obC1, ocC1] = (stC1', evsC1) :=
  ⟨rfl,
    (ioErrorLocalFrameButRootWalkAborts cfgC1 stC1 obC1 .openE stC1' evsC1 rfl).1,
    (ioErrorLocalFrameButRootWalkAborts cfgC1 stC1 obC1 .openE stC1' evsC1 rfl).2.2.2.2.2.1
      [ocC1]⟩

end Dupes

namespace Dupes

/-! ## C6: paranoid-mode hash collisions -/

def fsC6 : FS := fun p =>
  if p = "d" then some ⟨[0], false⟩ else if p = "p" then some ⟨[1], false⟩ else none

def cfgC6 : Cfg := ⟨true, 1, true, fun _ => true, 4, fun _ => "h", fsC6⟩

def odC6 : Obs := ⟨"d", "d", 1, true⟩

def opC6 : Obs := ⟨"p", "p", 1, true⟩

/-- C6 counterexample: paranoid mode, two same-size files `d` (byte `[0]`)
and `p` (byte `[1]`) with a contrived equal digest (`H` constant).  The
collision branch is taken (collision event logged, nothing registered), but
DigestBucket is NOT left unchanged: processing `p` backpatches `d`'s digest
entry into it (`hashes` goes from `[]` to `[("h", "d")]`), contradicting
the claim that SizeBucket, DigestBucket and the clusters are all left
unchanged. -/
theorem paranoidCollisionChangesDigestBucket_cex :
    runAll cfgC6 emptySt [[odC6, opC6]] =
      (⟨[(1, "d")], [("h", "d")], [], 2, 0, 0⟩,
        [.backpatch "d", .digest "p" "d", .digestMatch "p" "d",
          .byteCompare "p" "d", .collision "p" "d"]) ∧
    runAll cfgC6 emptySt [[odC6]] = (⟨[(1, "d")], [], [], 1, 0, 0⟩, []) ∧
    ([(("h" : String), ("d" : String))] : List (String × String)) ≠ [] :=
  ⟨rfl, rfl, by decide⟩

/-- C6 amended: in paranoid mode, when the byte comparison of a
digest-matching pair reports not-identical, no duplicate is registered:
`dupes`, `wasted`, SizeBucket and the clusters are unchanged, the colliding
new file is not inserted into any bucket under its own right, and only a
collision warning is emitted — but DigestBucket does gain (or has
overwritten) the backpatched entry of the stored size partner, which
`check` performs before the digest lookup. -/
theorem paranoidCollisionRegistersNothing (cfg : Cfg) (st : St) (o : Obs)
    (d sum sum2 q : String)
    (hreg : o.regular = true) (hmin : ¬ o.size < cfg.minimumSize)
    (hglob : ¬ (cfg.globIsDefault = false ∧ cfg.globMatch o.name = false))
    (hpar : cfg.paranoid = true)
    (hdupe : lookupA o.size st.sizes = some d)
    (hsum : checksum cfg.H cfg.fs d = .ok sum)
    (hsum2 : checksum cfg.H cfg.fs o.path = .ok sum2)
    (hq : lookupA sum2 (insertA sum d st.hashes) = some q)
    (hcmp : fileContentsMatch cfg.bufSize cfg.fs o.path q = .ok false) :
    check cfg st o =
      (.ok (),
        { st with files := (st.files + 1) % M64, hashes := insertA sum d st.hashes },
        [.backpatch d, .digest o.path d, .digestMatch o.path q,
          .byteCompare o.path q, .collision o.path q]) := by
  simp [check, hreg, hmin, hglob, hpar, hdupe, hsum, hsum2, hq, hcmp]

theorem paranoidCollisionRegistersNothing_witness :
    fileContentsMatch cfgC6.bufSize cfgC6.fs "p" "d" = .ok false ∧
      check cfgC6 ⟨[(1, "d")], [], [], 1, 0, 0⟩ opC6 =
        (.ok (), ⟨[(1, "d")], [("h", "d")], [], 2, 0, 0⟩,
          [.backpatch "d", .digest "p" "d", .digestMatch "p" "d",
            .byteCompare "p" "d", .collision "p" "d"]) :=
  ⟨rfl,
    paranoidCollisionRegistersNothing cfgC6 ⟨[(1, "d")], [], [], 1, 0, 0⟩ opC6
      "d" "h" "h" "d" rfl (by decide) (by decide) rfl rfl rfl rfl rfl rfl⟩

end Dupes

namespace Dupes

/-! ## C7: statistics match the clusters at every point -/

/-- Number of value entries (duplicates) across all clusters. -/
def clusterValueCount (final : List (String × List String)) : Nat :=
  (final.map (fun kv => kv.2.length)).sum

/-- Total size of the value entries across all clusters, given the size of
each path. -/
def clusterValueBytes (sz : String → Nat) (final : List (String × List String)) : Nat :=
  (final.map (fun kv => (kv.2.map sz).sum)).sum

/-- The C7 invariant: the two counters track the clusters (as `uint64`
values, i.e. modulo `2 ^ 64`). -/
def statsInv (sz : String → Nat) (st : St) : Prop :=
  st.dupes = clusterValueCount st.final % M64 ∧
    st.wasted = clusterValueBytes sz st.final % M64

theorem clusterValueCount_appendA (k x : String) (m : List (String × List String)) :
    clusterValueCount (appendA k x m) = clusterValueCount m + 1 := by
  induction m with
  | nil => simp [appendA, insertA, lookupA, clusterValueCount]
  | cons kv rest ih =>
    obtain ⟨k', v'⟩ := kv
    by_cases hk : k = k'
    · subst hk
      simp [appendA, insertA, lookupA, clusterValueCount]
      omega
    · simp only [appendA, insertA, lookupA, if_neg hk] at ih ⊢
      simp [clusterValueCount] at ih ⊢
      omega

theorem clusterValueBytes_appendA (sz : String → Nat) (k x : String)
    (m : List (String × List String)) :
    clusterValueBytes sz (appendA k x m) = clusterValueBytes sz m + sz x := by
  induction m with
  | nil => simp [appendA, insertA, lookupA, clusterValueBytes]
  | cons kv rest ih =>
    obtain ⟨k', v'⟩ := kv
    by_cases hk : k = k'
    · subst hk
      simp [appendA, insertA, lookupA, clusterValueBytes]
      omega
    · simp only [appendA, insertA, lookupA, if_neg hk] at ih ⊢
      simp [clusterValueBytes] at ih ⊢
      omega

/-- Each `check` step either leaves `final`, `dupes` and `wasted` alone, or
registers exactly one duplicate: it appends the path to one cluster and
increments both counters in the same branch (record time). -/
theorem check_final_cases (cfg : Cfg) (st : St) (o : Obs) :
    ((check cfg st o).2.1.final = st.final ∧ (check cfg st o).2.1.dupes = st.dupes ∧
      (check cfg st o).2.1.wasted = st.wasted) ∨
    (∃ q, (check cfg st o).2.1.final = appendA q o.path st.final ∧
      (check cfg st o).2.1.dupes = (st.dupes + 1) % M64 ∧
      (check cfg st o).2.1.wasted = (st.wasted + o.size) % M64) := by
  simp only [check]
  split
  · exact Or.inl ⟨rfl, rfl, rfl⟩
  split
  · exact Or.inl ⟨rfl, rfl, rfl⟩
  split
  · exact Or.inl ⟨rfl, rfl, rfl⟩
  next dupe hdupe =>
    split
    · exact Or.inl ⟨rfl, rfl, rfl⟩
    next sum hsum =>
      split
      · exact Or.inl ⟨rfl, rfl, rfl⟩
      next sum2 hsum2 =>
        split
        · exact Or.inl ⟨rfl, rfl, rfl⟩
        next q hq =>
          split
          · split
            · exact Or.inl ⟨rfl, rfl, rfl⟩
            · exact Or.inl ⟨rfl, rfl, rfl⟩
            · exact Or.inr ⟨q, rfl, rfl, rfl⟩
          · exact Or.inr ⟨q, rfl, rfl, rfl⟩

theorem statsInv_check (sz : String → Nat) (cfg : Cfg) (st : St) (o : Obs)
    (hsz : o.size = sz o.path) (h : statsInv sz st) :
    statsInv sz (check cfg st o).2.1 := by
  rcases check_final_cases cfg st o with ⟨hf, hd, hw⟩ | ⟨q, hf, hd, hw⟩
  · rw [statsInv, hf, hd, hw]; exact h
  · constructor
    · rw [hd, hf, clusterValueCount_appendA, h.1, Nat.mod_add_mod]
    · rw [hw, hf, clusterValueBytes_appendA, h.2, Nat.mod_add_mod, hsz]

theorem statsInv_runRoot (sz : String → Nat) (cfg : Cfg) :
    ∀ (l : List Obs) (st : St), (∀ o ∈ l, o.size = sz o.path) → statsInv sz st →
      statsInv sz (runRoot cfg st l).1 := by
  intro l
  induction l with
  | nil => intro st _ h; exact h
  | cons o os ih =>
    intro st hall h
    have hstep := statsInv_check sz cfg st o (hall o (by simp)) h
    rcases hr : check cfg st o with ⟨r, st', evs⟩
    rw [hr] at hstep
    cases r with
    | error e => simpa [runRoot, hr] using hstep
    | ok u =>
      simp only [runRoot, hr]
      exact ih st' (fun o' ho' => hall o' (by simp [ho'])) hstep

theorem statsInv_runAll (sz : String → Nat) (cfg : Cfg) :
    ∀ (roots : List (List Obs)) (st : St), (∀ o ∈ roots.flatten, o.size = sz o.path) →
      statsInv sz st → statsInv sz (runAll cfg st roots).1 := by
  intro roots
  induction roots with
  | nil => intro st _ h; exact h
  | cons r rs ih =>
    intro st hall h
    simp only [runAll]
    refine ih _ (fun o ho => hall o ?_) (statsInv_runRoot sz cfg r st (fun o ho => hall o ?_) h)
    · simp [List.mem_flatten] at ho ⊢
      exact Or.inr ho
    · simp [List.mem_flatten]
      exact Or.inl ho

/-- C7: at every point of a run (every state reachable by running the
program on some observation sequence from a fresh start), `wasted` equals
the sum of the sizes of all files appearing as a value (not a key) across
the clusters and `dupes` equals the number of such value entries — as
`uint64` values, hence exactly whenever those sums are below `2 ^ 64`.  The
increments happen in the same `check` branch that appends the duplicate to
its cluster (record time; `sortedDupes` is pure), see
`check_final_cases`. -/
theorem runStatisticsMatchClusters (sz : String → Nat) (cfg : Cfg)
    (roots : List (List Obs)) (hsz : ∀ o ∈ roots.flatten, o.size = sz o.path) :
    (runAll cfg emptySt roots).1.dupes =
        clusterValueCount (runAll cfg emptySt roots).1.final % M64 ∧
      (runAll cfg emptySt roots).1.wasted =
        clusterValueBytes sz (runAll cfg emptySt roots).1.final % M64 ∧
      (clusterValueCount (runAll cfg emptySt roots).1.final < M64 →
        (runAll cfg emptySt roots).1.dupes =
          clusterValueCount (runAll cfg emptySt roots).1.final) ∧
      (clusterValueBytes sz (runAll cfg emptySt roots).1.final < M64 →
        (runAll cfg emptySt roots).1.wasted =
          clusterValueBytes sz (runAll cfg emptySt roots).1.final) := by
  have h := statsInv_runAll sz cfg roots emptySt hsz ⟨rfl, rfl⟩
  exact ⟨h.1, h.2, fun hlt => by rw [h.1, Nat.mod_eq_of_lt hlt],
    fun hlt => by rw [h.2, Nat.mod_eq_of_lt hlt]⟩

def fsC7 : FS := fun p =>
  if p = "a" then some ⟨[3], false⟩ else if p = "c" then some ⟨[3], false⟩ else none

def cfgC7 : Cfg := ⟨false, 1, true, fun _ => true, 4, fun l => toString l, fsC7⟩

def szC7 : String → Nat := fun _ => 1

def rootsC7 : List (List Obs) := [[⟨"a", "a", 1, true⟩, ⟨"c", "c", 1, true⟩]]

theorem runStatisticsMatchClusters_witness :
    (runAll cfgC7 emptySt rootsC7).1.dupes =
        clusterValueCount (runAll cfgC7 emptySt rootsC7).1.final ∧
      (runAll cfgC7 emptySt rootsC7).1.wasted =
        clusterValueBytes szC7 (runAll cfgC7 emptySt rootsC7).1.final :=
  ⟨(runStatisticsMatchClusters szC7 cfgC7 rootsC7 (by decide)).2.2.1 (by decide),
    (runStatisticsMatchClusters szC7 cfgC7 rootsC7 (by decide)).2.2.2 (by decide)⟩

end Dupes

namespace Dupes

/-! ## C8: ordering of the reported clusters -/

theorem lookupA_insertA_self {K V : Type} [DecidableEq K] (k : K) (v : V) :
    ∀ m : List (K × V), lookupA k (insertA k v m) = some v := by
  intro m
  induction m with
  | nil => simp [insertA, lookupA]
  | cons kv rest ih =>
    obtain ⟨k', v'⟩ := kv
    by_cases hk : k = k'
    · subst hk; simp [insertA, lookupA]
    · simp [insertA, lookupA, hk, ih]

/-- Appending a duplicate puts it at the end of its cluster's list, so the
stored per-cluster order is discovery (insertion) order. -/
theorem lookupA_appendA_self (k x : String) (m : List (String × List String)) :
    lookupA k (appendA k x m) = some ((lookupA k m).getD [] ++ [x]) :=
  lookupA_insertA_self k _ m

/-- C8: the report is ordered by the original (cluster-key) path under the
total lexicographic string order: `sortedDupes` is a sorted permutation of
the cluster keys, and ANY enumeration order of the keys (Go map iteration
order is unspecified) sorts to the same list, so two runs over an unchanged
input tree produce identically ordered cluster output; within a cluster,
`appendA` stores duplicates in discovery order (`lookupA_appendA_self`),
and `clusterOutput` prints exactly the stored list per sorted key. -/
theorem clusterOutputDeterministicallySorted (st : St) :
    List.Sorted (fun a b : String => a ≤ b) (sortedDupes st) ∧
      (sortedDupes st).Perm (st.final.map Prod.fst) ∧
      (∀ ks : List String, ks.Perm (st.final.map Prod.fst) →
        List.insertionSort (fun a b => a ≤ b) ks = sortedDupes st) ∧
      clusterOutput st = (sortedDupes st).map (fun k => (k, (lookupA k st.final).getD [])) := by
  refine ⟨List.sorted_insertionSort _ _, List.perm_insertionSort _ _, ?_, rfl⟩
  intro ks hperm
  refine List.eq_of_perm_of_sorted ?_ (List.sorted_insertionSort _ _)
    (List.sorted_insertionSort _ _)
  exact ((List.perm_insertionSort _ ks).trans hperm).trans
    (List.perm_insertionSort _ _).symm

def stC8 : St := ⟨[], [], [("b", ["x"]), ("a", ["y", "z"])], 0, 0, 0⟩

theorem clusterOutputDeterministicallySorted_witness :
    (["a", "b"] : List String).Perm (stC8.final.map Prod.fst) ∧
      List.insertionSort (fun a b : String => a ≤ b) ["a", "b"] = sortedDupes stC8 ∧
      sortedDupes stC8 = ["a", "b"] :=
  ⟨by decide,
    (clusterOutputDeterministicallySorted stC8).2.2.1 ["a", "b"] (by decide),
    by
      have h1 : ¬ ("b" : String) ≤ "a" := by
        simp [String.le_iff_toList_le]
        decide
      simp [sortedDupes, stC8, List.insertionSort, List.orderedInsert, h1]⟩

end Dupes

namespace Dupes

/-! ## C3: the size filter is a strict precondition for hashing/comparing -/

/-- The digest the Digest Service produces for a path when the file can be
opened (`checksum` succeeds exactly with this value). -/
def digestOf (cfg : Cfg) (p : String) : Option String :=
  (cfg.fs p).map (fun f => cfg.H f.bytes)

theorem checksum_ok_iff (cfg : Cfg) (p s : String) :
    checksum cfg.H cfg.fs p = .ok s ↔ digestOf cfg p = some s := by
  unfold checksum digestOf
  cases cfg.fs p <;> simp

theorem lookupA_mem {K V : Type} [DecidableEq K] (k : K) (v : V) :
    ∀ m : List (K × V), lookupA k m = some v → (k, v) ∈ m := by
  intro m
  induction m with
  | nil => simp [lookupA]
  | cons kv rest ih =>
    obtain ⟨a, b⟩ := kv
    by_cases hk : k = a
    · subst hk
      simp only [lookupA, if_pos rfl]
      intro h
      injection h with h
      subst h
      exact List.mem_cons_self _ _
    · simp only [lookupA, if_neg hk]
      intro h
      exact List.mem_cons_of_mem _ (ih h)

theorem mem_insertA {K V : Type} [DecidableEq K] (k : K) (v : V) (k' : K) (v' : V) :
    ∀ m : List (K × V), (k', v') ∈ insertA k v m → (k' = k ∧ v' = v) ∨ (k', v') ∈ m := by
  intro m
  induction m with
  | nil =>
    intro h
    simp only [insertA] at h
    rcases List.mem_cons.mp h with h | h
    · exact Or.inl ⟨congrArg Prod.fst h, congrArg Prod.snd h⟩
    · simp at h
  | cons kv rest ih =>
    obtain ⟨a, b⟩ := kv
    by_cases hk : k = a
    · subst hk
      simp only [insertA, if_pos rfl]
      intro h
      rcases List.mem_cons.mp h with h | h
      · exact Or.inl ⟨congrArg Prod.fst h, congrArg Prod.snd h⟩
      · exact Or.inr (List.mem_cons_of_mem _ h)
    · simp only [insertA, if_neg hk]
      intro h
      rcases List.mem_cons.mp h with h | h
      · right; rw [h]; exact List.mem_cons_self _ _
      · rcases ih h with h' | h'
        · exact Or.inl h'
        · exact Or.inr (List.mem_cons_of_mem _ h')

/-- An event is size-consistent when the two files it involves have the
same size; bookkeeping events carry no pair. -/
def sizeConsistentEv (sz : String → Nat) : Ev → Prop
  | .digest p q => sz p = sz q
  | .digestMatch p q => sz p = sz q
  | .byteCompare p q => sz p = sz q
  | _ => True

/-- SizeBucket invariant: every stored entry maps an observed path to its
size. -/
def sizesOk (sz : String → Nat) (paths : List String) (st : St) : Prop :=
  ∀ s p, (s, p) ∈ st.sizes → p ∈ paths ∧ sz p = s

/-- DigestBucket invariant: every stored entry maps a digest to an observed
path actually having that digest. -/
def hashesOk (cfg : Cfg) (paths : List String) (st : St) : Prop :=
  ∀ h p, (h, p) ∈ st.hashes → p ∈ paths ∧ digestOf cfg p = some h

theorem check_sizeConsistent (cfg : Cfg) (sz : String → Nat) (paths : List String)
    (st : St) (o : Obs) (hsz : o.size = sz o.path) (hmem : o.path ∈ paths)
    (hH : ∀ p ∈ paths, ∀ q ∈ paths, digestOf cfg p ≠ none →
      digestOf cfg p = digestOf cfg q → sz p = sz q)
    (hsizes : sizesOk sz paths st) (hhashes : hashesOk cfg paths st) :
    sizesOk sz paths (check cfg st o).2.1 ∧ hashesOk cfg paths (check cfg st o).2.1 ∧
      ∀ ev ∈ (check cfg st o).2.2, sizeConsistentEv sz ev := by
  unfold sizesOk at hsizes ⊢
  unfold hashesOk at hhashes ⊢
  simp only [check]
  split
  · exact ⟨hsizes, hhashes, by simp⟩
  split
  · exact ⟨hsizes, hhashes, by simp⟩
  split
  next hd =>
    refine ⟨?_, hhashes, by simp⟩
    intro s p hp
    rcases mem_insertA _ _ _ _ _ hp with ⟨hs, hp'⟩ | hin
    · subst hs; subst hp'
      exact ⟨hmem, hsz.symm⟩
    · exact hsizes s p hin
  next dupe hd =>
    have hdupe := hsizes _ _ (lookupA_mem _ _ _ hd)
    have hdsz := hdupe.2
    split
    next e herr =>
      refine ⟨hsizes, hhashes, ?_⟩
      rintro ev hev
      fin_cases hev <;> simp [sizeConsistentEv]
    next sum hsum =>
      have hdig : digestOf cfg dupe = some sum := (checksum_ok_iff cfg dupe sum).mp hsum
      have hhashes' : ∀ h p, (h, p) ∈ insertA sum dupe st.hashes →
          p ∈ paths ∧ digestOf cfg p = some h := by
        intro h p hp
        rcases mem_insertA _ _ _ _ _ hp with ⟨hh, hp'⟩ | hin
        · subst hh; subst hp'
          exact ⟨hdupe.1, hdig⟩
        · exact hhashes h p hin
      split
      next e herr2 =>
        refine ⟨hsizes, hhashes', ?_⟩
        rintro ev hev
        fin_cases hev <;> simp [sizeConsistentEv] <;> omega
      next sum2 hsum2 =>
        have hdig2 : digestOf cfg o.path = some sum2 := (checksum_ok_iff _ _ _).mp hsum2
        split
        next hmiss =>
          refine ⟨hsizes, ?_, ?_⟩
          · intro h p hp
            rcases mem_insertA _ _ _ _ _ hp with ⟨hh, hp'⟩ | hin
            · subst hh; subst hp'
              exact ⟨hmem, hdig2⟩
            · exact hhashes' h p hin
          · rintro ev hev
            fin_cases hev <;> simp [sizeConsistentEv] <;> omega
        next q hq =>
          have hqok := hhashes' _ _ (lookupA_mem _ _ _ hq)
          have hszq : sz o.path = sz q := by
            apply hH o.path hmem q hqok.1
            · rw [hdig2]; simp
            · rw [hdig2, hqok.2]
          split
          · split
            next e hcmp =>
              refine ⟨hsizes, hhashes', ?_⟩
              rintro ev hev
              fin_cases hev <;> simp [sizeConsistentEv] <;> omega
            next hcmp =>
              refine ⟨hsizes, hhashes', ?_⟩
              rintro ev hev
              fin_cases hev <;> simp [sizeConsistentEv] <;> omega
            next hcmp =>
              refine ⟨hsizes, hhashes', ?_⟩
              rintro ev hev
              fin_cases hev <;> simp [sizeConsistentEv] <;> omega
          · refine ⟨hsizes, hhashes', ?_⟩
            rintro ev hev
            fin_cases hev <;> simp [sizeConsistentEv] <;> omega

theorem runRoot_sizeConsistent (cfg : Cfg) (sz : String → Nat) (paths : List String)
    (hH : ∀ p ∈ paths, ∀ q ∈ paths, digestOf cfg p ≠ none →
      digestOf cfg p = digestOf cfg q → sz p = sz q) :
    ∀ (l : List Obs) (st : St),
      (∀ o ∈ l, o.size = sz o.path ∧ o.path ∈ paths) →
      sizesOk sz paths st → hashesOk cfg paths st →
      sizesOk sz paths (runRoot cfg st l).1 ∧ hashesOk cfg paths (runRoot cfg st l).1 ∧
        ∀ ev ∈ (runRoot cfg st l).2, sizeConsistentEv sz ev := by
  intro l
  induction l with
  | nil => intro st _ h1 h2; exact ⟨h1, h2, by simp [runRoot]⟩
  | cons o os ih =>
    intro st hall h1 h2
    have ho := hall o (by simp)
    have hstep := check_sizeConsistent cfg sz paths st o ho.1 ho.2 hH h1 h2
    rcases hr : check cfg st o with ⟨r, st', evs⟩
    rw [hr] at hstep
    cases r with
    | error e =>
      simp only [runRoot, hr]
      exact hstep
    | ok u =>
      simp only [runRoot, hr]
      have hrest := ih st' (fun o' ho' => hall o' (by simp [ho'])) hstep.1 hstep.2.1
      refine ⟨hrest.1, hrest.2.1, ?_⟩
      intro ev hev
      rcases List.mem_append.mp hev with hev | hev
      · exact hstep.2.2 ev hev
      · exact hrest.2.2 ev hev

theorem runAll_sizeConsistent (cfg : Cfg) (sz : String → Nat) (paths : List String)
    (hH : ∀ p ∈ paths, ∀ q ∈ paths, digestOf cfg p ≠ none →
      digestOf cfg p = digestOf cfg q → sz p = sz q) :
    ∀ (roots : List (List Obs)) (st : St),
      (∀ o ∈ roots.flatten, o.size = sz o.path ∧ o.path ∈ paths) →
      sizesOk sz paths st → hashesOk cfg paths st →
      sizesOk sz paths (runAll cfg st roots).1 ∧ hashesOk cfg paths (runAll cfg st roots).1 ∧
        ∀ ev ∈ (runAll cfg st roots).2, sizeConsistentEv sz ev := by
  intro roots
  induction roots with
  | nil => intro st _ h1 h2; exact ⟨h1, h2, by simp [runAll]⟩
  | cons r rs ih =>
    intro st hall h1 h2
    have hhead := runRoot_sizeConsistent cfg sz paths hH r st
      (fun o ho => hall o (by simp [List.mem_flatten]; exact Or.inl ho)) h1 h2
    have hrest := ih (runRoot cfg st r).1
      (fun o ho => hall o (by simp [List.mem_flatten] at ho ⊢; exact Or.inr ho))
      hhead.1 hhead.2.1
    simp only [runAll]
    refine ⟨hrest.1, hrest.2.1, ?_⟩
    intro ev hev
    rcases List.mem_append.mp hev with hev | hev
    · exact hhead.2.2 ev hev
    · exact hrest.2.2 ev hev

/-- C3: sharing a size with a previously seen file is a strict precondition
for any hashing or comparison.  Over any run whose observations report each
path's size (`sz`) and whose digest function does not collide across
distinct sizes on the observed paths, every digest computation, digest
match and byte comparison the run performs involves two paths of equal
size; in particular two files observed with distinct sizes are never
byte-compared and never matched against each other's digest entry. -/
theorem sizeFilterStrictPrecondition (cfg : Cfg) (sz : String → Nat)
    (roots : List (List Obs))
    (hsz : ∀ o ∈ roots.flatten, o.size = sz o.path)
    (hH : ∀ p ∈ roots.flatten.map Obs.path, ∀ q ∈ roots.flatten.map Obs.path,
      digestOf cfg p ≠ none → digestOf cfg p = digestOf cfg q → sz p = sz q) :
    ∀ p q : String,
      (Ev.digest p q ∈ (runAll cfg emptySt roots).2 ∨
        Ev.digestMatch p q ∈ (runAll cfg emptySt roots).2 ∨
        Ev.byteCompare p q ∈ (runAll cfg emptySt roots).2) →
      sz p = sz q := by
  have h := runAll_sizeConsistent cfg sz (roots.flatten.map Obs.path) hH roots emptySt
    (fun o ho => ⟨hsz o ho, List.mem_map_of_mem _ ho⟩)
    (by intro s p hp; simp [emptySt] at hp)
    (by intro h' p hp; simp [emptySt] at hp)
  intro p q hev
  rcases hev with hev | hev | hev
  · exact h.2.2 _ hev
  · exact h.2.2 _ hev
  · exact h.2.2 _ hev

def fsC3 : FS := fun p =>
  if p = "a" then some ⟨[5], false⟩ else if p = "c" then some ⟨[5], false⟩ else none

def cfgC3 : Cfg := ⟨false, 1, true, fun _ => true, 4, fun l => toString l, fsC3⟩

def szC3 : String → Nat := fun _ => 1

def rootsC3 : List (List Obs) := [[⟨"a", "a", 1, true⟩, ⟨"c", "c", 1, true⟩]]

theorem sizeFilterStrictPrecondition_witness :
    Ev.digestMatch "c" "a" ∈ (runAll cfgC3 emptySt rootsC3).2 ∧ szC3 "c" = szC3 "a" :=
  ⟨by decide,
    sizeFilterStrictPrecondition cfgC3 szC3 rootsC3 (by decide) (by decide) "c" "a"
      (Or.inr (Or.inl (by decide)))⟩

end Dupes
